import Mathlib

/-!
Verification development for the Todoist extraction/normalization pipeline in
`src/wt-function/todoist.js`.  Strings are embedded as lists of characters and
each regular expression of the source is embedded as an executable matcher that
follows the JS engine's leftmost/greedy-with-backtracking semantics on the
shapes that occur in this program.  Exceptions (`throw TypeError`) are embedded
as `Option`/`Except` failures.
-/

namespace Todoist

abbrev Str := List Char

/-- JS whitespace class `\s` restricted to the characters this code meets. -/
def isWS (c : Char) : Bool :=
  c = ' ' || c = '\t' || c = '\n' || c = '\r' || c = '\x0b' || c = '\x0c'

/-- JS `.` (any character except a line terminator). -/
def isDot (c : Char) : Bool :=
  !(c = '\n' || c = '\r' || c = '\u2028' || c = '\u2029')

/-- JS word character class `\w` = `[A-Za-z0-9_]`. -/
def isWordChar (c : Char) : Bool := c.isAlphanum || c = '_'

/-- JS truthiness on strings: the empty string is falsy and is dropped by
`onlyTruthyValuesOnPojo` (todoist.js lines 28-37). -/
def strOpt (s : Str) : Option Str := if s = [] then none else some s

/-- `String.prototype.toLowerCase` on the ASCII range used here. -/
def toLowerStr (s : Str) : Str := s.map Char.toLower

/-- Backtracking search for the `\s+(.+)` tail of `RE_TAG` (todoist.js line 15):
try the greedy whitespace length first, give characters back until `(.+)` can
match at least one non-newline character. -/
def tagGo (s3 : Str) : Nat → Option Str
  | 0 => none
  | k+1 =>
    match s3.drop (k+1) with
    | c :: r => if isDot c then some (List.takeWhile isDot (c :: r)) else tagGo s3 k
    | [] => tagGo s3 k

def findTagRest (s3 : Str) : Option Str := tagGo s3 (s3.takeWhile isWS).length

/-- `RE_TAG = /^\x7b([^}]+)\x7d\s+(.+)/` (todoist.js line 15); returns the pair
(group 1, group 2). -/
def matchTag : Str → Option (Str × Str)
  | [] => none
  | c :: s1 =>
    if c = '{' then
      if s1.takeWhile (fun c => !(c = '}')) = [] then none
      else
        -- a nonempty `dropWhile (not (c = brace))` result always starts with
        -- the closing brace, so only emptiness (no brace at all) can fail here
        match s1.dropWhile (fun c => !(c = '}')) with
        | [] => none
        | _ :: s3 =>
          match findTagRest s3 with
          | some g2 => some (s1.takeWhile (fun c => !(c = '}')), g2)
          | none => none
    else none

def wordBoundaryOk : Option Char → Bool
  | none => true
  | some c => !isWordChar c

def playlistLit : Str := ['p', 'l', 'a', 'y', 'l', 'i', 's', 't']

/-- `RE_PLAYLIST_CONTENT = /\bplaylist\b/` (todoist.js line 13): scan every
position, checking the word-boundary condition on both sides. -/
def playlistGo : Option Char → Str → Bool
  | _, [] => false
  | prev, c :: rest =>
    ((c :: rest).take 8 == playlistLit && wordBoundaryOk prev
        && wordBoundaryOk ((c :: rest).drop 8).head?)
    || playlistGo (some c) rest

def playlistTest (s : Str) : Bool := playlistGo none s

/-- The character class `[^\(\s]` shared by both hypertext patterns. -/
def h1Class (c : Char) : Bool := !(c = '(' || isWS c)

/-- `\B` after a close paren: the position is not a word boundary; since `)` is
a non-word character this holds exactly when end-of-input follows or the next
character is also a non-word character. -/
def okAfter : Str → Bool
  | [] => true
  | c :: _ => !isWordChar c

def bHolds (okA : Bool) : Str → Bool
  | [] => okA
  | d :: _ => !isWordChar d

/-- Backtracking for `(.+)\)\B` inside a run `D` of `.`-characters followed by
a remainder whose `\B`-status is `okA`: the engine takes the deepest `)` in `D`
at which `\B` holds; group 2 is everything before it. -/
def lastCloseSplit (okA : Bool) : Str → Option (Str × Str)
  | [] => none
  | c :: rest =>
    match lastCloseSplit okA rest with
    | some (U, tl) => some (c :: U, tl)
    | none => if c = ')' && bHolds okA rest then some ([], rest) else none

/-- The `(?:\s*\((.+)\))\B` tail shared by both hypertext patterns, applied to
the input remaining after the (already consumed) mandatory whitespace. -/
def parenPart : Str → Option Str
  | [] => none
  | c :: T =>
    if c = '(' then
      match lastCloseSplit (okAfter (T.dropWhile isDot)) (T.takeWhile isDot) with
      | some (U, _) => if U = [] then none else some U
      | none => none
    else none

/-- `RE_HYPERTEXT_1 = /^([^\(\s]+)\s+(?:\s*\((.+)\))\B/` (todoist.js line 16);
returns (group 1, group 2). -/
def matchH1 (s : Str) : Option (Str × Str) :=
  if s.takeWhile h1Class = [] then none
  else
    if (s.dropWhile h1Class).takeWhile isWS = [] then none
    else
      match parenPart ((s.dropWhile h1Class).dropWhile isWS) with
      | some U => some (s.takeWhile h1Class, U)
      | none => none

/-- `RE_HYPERTEXT_2 = /^\[([^\(\s]+)\](?:\s*\((.+)\))\B/` (todoist.js line 17).
The bracket segment is a `[^\(\s]+` run that must end with `]` (an inner `]`
followed by further run characters can never be followed by `\s*\(`). -/
def matchH2 : Str → Option (Str × Str)
  | [] => none
  | c :: s1 =>
    if c = '[' then
      match (s1.takeWhile h1Class).getLast? with
      | none => none
      | some b =>
        if b = ']' then
          if (s1.takeWhile h1Class).dropLast = [] then none
          else
            match parenPart ((s1.dropWhile h1Class).dropWhile isWS) with
            | some U => some ((s1.takeWhile h1Class).dropLast, U)
            | none => none
        else none
    else none

/-- `RE_YT_PLAYLIST = /\s*-\s*YouTube$/` matched against an entire suffix. -/
def ytMatch (s : Str) : Bool :=
  match s.dropWhile isWS with
  | [] => false
  | c :: s2 => c = '-' && (s2.dropWhile isWS == ['Y', 'o', 'u', 'T', 'u', 'b', 'e'])

/-- `removeYouTubeKeyword` (todoist.js line 58): `.replace` with a non-global,
end-anchored pattern removes the leftmost suffix matching it, if any. -/
def removeYouTubeKeyword : Str → Str
  | [] => []
  | c :: rest => if ytMatch (c :: rest) then [] else c :: removeYouTubeKeyword rest

structure ParsedContent where
  text : Option Str
  tag : Option Str
  link : Option Str
deriving DecidableEq, Repr

/-- The hypertext step of `formatContent` (todoist.js lines 86-94).  Note the
destructuring on line 88: for the first form, group 1 goes to `link` and the
running `content` becomes group 2; the second form does the opposite. -/
def hyperStep (c1 : Str) : Option Str × Str :=
  match matchH1 c1 with
  | some (g1, g2) => (some g1, g2)
  | none =>
    match matchH2 c1 with
    | some (g1, g2) => (some g2, g1)
    | none => (none, c1)

/-- Lines 96-98 of todoist.js: strip the YouTube decoration, lowercase the tag,
keep only truthy fields. -/
def assembleContent (tagv : Option Str) (c1 : Str) : ParsedContent :=
  { text := strOpt (removeYouTubeKeyword (hyperStep c1).2)
    tag := match tagv with | some a => strOpt (toLowerStr a) | none => none
    link := match (hyperStep c1).1 with | some l => strOpt l | none => none }

/-- `formatContent` (todoist.js lines 65-99) on string input. -/
def formatContent (content : Str) : ParsedContent :=
  match matchTag content with
  | some (a, rest) => assembleContent (some a) rest
  | none =>
    assembleContent (if playlistTest content then some playlistLit else none) content

/-- `formatDate` (todoist.js lines 44-51).  The destructuring
`[, day, month, year]` binds `day` to the `(\d{4})` group and `year` to the
final `(\d{2})` group, so the template renders month, four-digit year, comma,
day.  `none` embeds the TypeError thrown when the anchored match fails. -/
def formatDate (s : Str) : Option Str :=
  match s with
  | y1 :: y2 :: y3 :: y4 :: '-' :: m1 :: m2 :: '-' :: d1 :: d2 :: _ =>
    if y1.isDigit && y2.isDigit && y3.isDigit && y4.isDigit
        && m1.isDigit && m2.isDigit && d1.isDigit && d2.isDigit then
      some ([m1, m2] ++ (' ' :: [y1, y2, y3, y4]) ++ (',' :: ' ' :: [d1, d2]))
    else none
  | _ => none

/-! ## Data model: items, tasks, the section map as a JS object -/

/-- `TodoistSyncAPI.Item`: the fields `formatProjectItems`/`formatItem` read.
`checked` is the API's 0/1 flag (`!!item.checked`); `parent_id` and
`section_id` are nullable. -/
structure Item where
  id : Int
  parent_id : Option Int
  section_id : Option Nat
  content : Str
  checked : Nat
  date_added : Str
  priority : Nat
deriving DecidableEq, Repr

/-- The normalized output record built by `formatItem` (todoist.js 137-145). -/
structure Task where
  checked : Bool
  dateAdded : Str
  id : Int
  parentId : Option Int
  sectionId : Option Nat
  priority : Nat
  content : ParsedContent
deriving DecidableEq, Repr

/-- Keys of the `SectionMap` object: the string key `"null"` created by the
literal `{ null: ROOT_SECTION }`, and numeric section-id keys.  A numeric key
can never collide with the `"null"` string key. -/
inductive JsKey where
  | knull : JsKey
  | kid : Nat → JsKey
deriving DecidableEq, Repr

/-- `SectionMap` values: the fixed `ROOT_SECTION` string for the sentinel key,
a `formatContent` result for every real section. -/
inductive JsVal where
  | vstr : Str → JsVal
  | vparsed : ParsedContent → JsVal
deriving DecidableEq, Repr

/-- A JS object with `JsKey` keys, in property insertion order. -/
abbrev JsObj := List (JsKey × JsVal)

/-- The JS `in` operator on property keys. -/
def objHas : JsObj → JsKey → Bool
  | [], _ => false
  | p :: o, k => p.1 == k || objHas o k

/-- JS property read. -/
def objGet : JsObj → JsKey → Option JsVal
  | [], _ => none
  | p :: o, k => if p.1 == k then some p.2 else objGet o k

/-- JS property assignment: overwrite in place if present (order kept), else
append as the newest key. -/
def objSet : JsObj → JsKey → JsVal → JsObj
  | [], k, v => [(k, v)]
  | p :: o, k, v => if p.1 == k then (k, v) :: o else p :: objSet o k v

/-- `const ROOT_SECTION = ':root'` (todoist.js line 11). -/
def ROOT_SECTION : Str := [':', 'r', 'o', 'o', 't']

/-- `sectionId in sectionsNameById` coerces the property name to a string, so a
`null` section id hits the `"null"` key. -/
def keyOfSectionId : Option Nat → JsKey
  | none => JsKey.knull
  | some n => JsKey.kid n

/-- `RE_IGNORE_ITEM = /✖:?$/` (todoist.js line 18). -/
def reIgnoreItem (s : Str) : Bool :=
  match s.reverse with
  | '✖' :: _ => true
  | ':' :: '✖' :: _ => true
  | _ => false

/-- `RE_CATEGORY_ITEM = /:$/` (todoist.js line 20). -/
def reCategoryItem (s : Str) : Bool :=
  match s.reverse with
  | ':' :: _ => true
  | _ => false

/-- `RE_IGNORE_SECTION = /✖$/` (todoist.js line 19). -/
def reIgnoreSection (s : Str) : Bool :=
  match s.reverse with
  | '✖' :: _ => true
  | _ => false

/-- `String.prototype.trim` over the whitespace class used here. -/
def trimStr (s : Str) : Str :=
  ((s.dropWhile isWS).reverse.dropWhile isWS).reverse

/-- `const NIL = -1` (todoist.js line 21). -/
def NIL : Int := -1

/-- JS `currParentId == lastSkippedParentId`: `null` is never loosely equal to
a number, two numbers compare by value. -/
def looseEq (p : Option Int) (ls : Int) : Bool :=
  match p with
  | none => false
  | some v => v == ls

/-- JS `currParentId !== lastSkippedParentId`: `null` is strictly different
from every number. -/
def strictNe (p : Option Int) (ls : Int) : Bool :=
  match p with
  | none => true
  | some v => !(v == ls)

/-- `formatItem` (todoist.js 137-145); `none` embeds the TypeError propagated
out of `formatDate` on a malformed `date_added`. -/
def formatItem (it : Item) : Option Task :=
  match formatDate it.date_added with
  | none => none
  | some d =>
    some { checked := it.checked != 0
           dateAdded := d
           id := it.id
           parentId := it.parent_id
           sectionId := it.section_id
           priority := it.priority
           content := formatContent it.content }

def inSec (m : JsObj) (it : Item) : Bool := objHas m (keyOfSectionId it.section_id)

def isIgn (it : Item) : Bool := reIgnoreItem it.content

def isCatI (it : Item) : Bool := reCategoryItem it.content

/-- The update of `lastSkippedParentId` at the bottom of the loop body
(todoist.js 176-185): reset to NIL when the strict comparison differs, then a
category marker under the skipped parent re-asserts the skip for its own id. -/
def nextSkip (it : Item) (ls : Int) : Int :=
  if isCatI it && looseEq it.parent_id ls then it.id
  else if strictNe it.parent_id ls then NIL else ls

/-- The loop of `formatProjectItems` (todoist.js 151-186), with the running
`lastSkippedParentId` made explicit.  An item is pushed as a task exactly when
it is neither parent-skipped nor a category marker; `none` embeds a thrown
TypeError (the whole call returns nothing). -/
def fpiGo (m : JsObj) : List Item → Int → Option (List Task × List Int)
  | [], _ => some ([], [])
  | it :: rest, ls =>
    if inSec m it then
      if isIgn it then fpiGo m rest it.id
      else
        match (if looseEq it.parent_id ls || isCatI it then some none
               else (formatItem it).map some),
              fpiGo m rest (nextSkip it ls) with
        | some o, some (ts, cs) =>
          some ((match o with | some t => t :: ts | none => ts),
                if isCatI it then it.id :: cs else cs)
        | _, _ => none
    else fpiGo m rest ls

/-- The default value of the optional `sectionsNameById` parameter
(todoist.js line 135). -/
def defaultSectionMap : JsObj := [(JsKey.knull, JsVal.vstr ROOT_SECTION)]

/-- `formatProjectItems` (todoist.js 135-192) with an explicit section map. -/
def formatProjectItems (items : List Item) (sectionsNameById : JsObj) :
    Option (List Task × List Int) :=
  fpiGo sectionsNameById items NIL

/-- `formatProjectItems` as called in JS, where the map argument may be
`undefined` and then defaults. -/
def formatProjectItemsJS (items : List Item) (m? : Option JsObj) :
    Option (List Task × List Int) :=
  formatProjectItems items (m?.getD defaultSectionMap)

/-! ## SectionResolver -/

/-- A section record as consumed by `getSectionsGroupedByProjectId` (the
project filter happens in `_getSections`, before this fold). -/
structure Section where
  id : Nat
  name : Str
deriving DecidableEq, Repr

/-- `getSectionsGroupedByProjectId` (todoist.js 334-348): fold the section list
onto the object literal `{ null: ROOT_SECTION }`. -/
def getSectionsGroupedByProjectId (sections : List Section) : JsObj :=
  sections.foldl
    (fun sectionsMap s =>
      if reIgnoreSection (trimStr s.name) then sectionsMap
      else objSet sectionsMap (JsKey.kid s.id) (JsVal.vparsed (formatContent s.name)))
    [(JsKey.knull, JsVal.vstr ROOT_SECTION)]

/-! ## ArchiveAggregator: single-query pagination -/

/-- One response of the `archive/items` endpoint. -/
structure Page where
  items : List Item
  has_more : Bool
  next_cursor : Option Str
deriving DecidableEq, Repr

/-- Lines 273-275 of todoist.js: `nextData.items` is prepended with the items
so far, then `Object.assign(data, nextData)` takes `has_more` and (through the
explicit line 274) `next_cursor` from the new page. -/
def mergePage (data next : Page) : Page :=
  { items := data.items ++ next.items
    has_more := next.has_more
    next_cursor := next.next_cursor }

/-- The `while (data.has_more)` loop of `_getArchivedProjectItems`
(todoist.js 265-276).  `rest` is the sequence of pages the fetch capability
will return to further calls; the result records the merged data together with
the cursor sent on each subsequent call.  `none` embeds the situation where
the loop still wants a page but the capability has none left. -/
def archiveLoop : List Page → Page → Option (Page × List (Option Str))
  | [], data => if data.has_more then none else some (data, [])
  | next :: rest, data =>
    if data.has_more then
      (archiveLoop rest (mergePage data next)).map
        (fun pc => (pc.1, data.next_cursor :: pc.2))
    else some (data, [])

/-- `_getArchivedProjectItems` (todoist.js 254-279) against a fetch capability
that returns the listed pages on successive calls: the first call consumes the
head, the loop consumes the rest.  The call count is one more than the length
of the returned cursor list. -/
def getArchivedProjectItemsModel (pages : List Page) :
    Option (Page × List (Option Str)) :=
  match pages with
  | [] => none
  | p0 :: rest => archiveLoop rest p0

/-! ## ArchiveAggregator: multi-dimension fan-out -/

def insertAsc (n : Nat) : List Nat → List Nat
  | [] => [n]
  | m :: rest => if n ≤ m then n :: m :: rest else m :: insertAsc n rest

def sortAsc (l : List Nat) : List Nat := l.foldr insertAsc []

/-- `Object.keys` on the rest-object `{null: _, ...projectSectionsNameById}`
followed by `.map(Number)` (todoist.js 382-383).  JS enumerates array-index
keys (the numeric section ids) in ascending numeric order. -/
def sectionIdsOf (m : JsObj) : List Nat :=
  sortAsc (m.filterMap (fun p => match p.1 with
    | JsKey.kid n => some n
    | JsKey.knull => none))

/-- `parentIds && parentIds.length` guard (todoist.js 395-400): an absent or
empty list contributes no queries. -/
def parentList : Option (List Int) → List Int
  | some ps => ps
  | none => []

/-- `getTasksFromResponseData` (todoist.js 373). -/
def getTasksFromResponseData (m : JsObj) (d : Page) : Option (List Task) :=
  (formatProjectItems d.items m).map Prod.fst

/-- `getTasks` (todoist.js 380): a rejected fetch stays rejected (`some e`); a
TypeError thrown while formatting rejects the chained promise (`none`). -/
def getTasks {ε : Type} (m : JsObj) (whenData : Except ε Page) :
    Except (Option ε) (List Task) :=
  match whenData with
  | Except.error e => Except.error (some e)
  | Except.ok d =>
    match getTasksFromResponseData m d with
    | none => Except.error none
    | some ts => Except.ok ts

/-- The `whenAllKindTasks` array (todoist.js 385-400): the project-wide query,
then one query per section id, then one query per supplied parent id. -/
def gpatDims {ε : Type} (projectId : Nat) (m : JsObj) (parentIds : Option (List Int))
    (fetchProject : Nat → Except ε Page) (fetchSection : Nat → Except ε Page)
    (fetchParent : Int → Except ε Page) : List (Except (Option ε) (List Task)) :=
  (getTasks m (fetchProject projectId)
      :: (sectionIdsOf m).map (fun sid => getTasks m (fetchSection sid)))
    ++ (parentList parentIds).map (fun p => getTasks m (fetchParent p))

/-- `Promise.all`: the fulfilled values in order, or the first rejection. -/
def seqExcept {ε α : Type} : List (Except ε α) → Except ε (List α)
  | [] => Except.ok []
  | x :: xs =>
    match x with
    | Except.error e => Except.error e
    | Except.ok v =>
      match seqExcept xs with
      | Except.error e => Except.error e
      | Except.ok vs => Except.ok (v :: vs)

/-- `getProjectArchivedTasks` (todoist.js 368-404) with a defined section map:
`Promise.all` over all dimensions, then `.flat()`. -/
def getProjectArchivedTasks {ε : Type} (projectId : Nat) (m : JsObj)
    (parentIds : Option (List Int)) (fetchProject : Nat → Except ε Page)
    (fetchSection : Nat → Except ε Page) (fetchParent : Int → Except ε Page) :
    Except (Option ε) (List Task) :=
  (seqExcept (gpatDims projectId m parentIds fetchProject fetchSection fetchParent)).map
    List.flatten

/-- `getProjectArchivedTasks` as callable from JS: the method is not `async`,
and line 382 destructures `sectionsNameById` before any query is issued, so an
`undefined` map makes the call throw a TypeError synchronously (outer
`Except.error ()`) instead of returning a promise. -/
def getProjectArchivedTasksJS {ε : Type} (projectId : Nat) (m? : Option JsObj)
    (parentIds : Option (List Int)) (fetchProject : Nat → Except ε Page)
    (fetchSection : Nat → Except ε Page) (fetchParent : Int → Except ε Page) :
    Except Unit (Except (Option ε) (List Task)) :=
  match m? with
  | none => Except.error ()
  | some m =>
    Except.ok (getProjectArchivedTasks projectId m parentIds
      fetchProject fetchSection fetchParent)

/-! ## Helper lemmas -/

theorem objGet_knull_objSet_kid (o : JsObj) (n : Nat) (v : JsVal) :
    objGet (objSet o (JsKey.kid n) v) JsKey.knull = objGet o JsKey.knull := by
  induction o with
  | nil => simp [objSet, objGet]
  | cons p o ih =>
    by_cases h : p.1 = JsKey.kid n
    · simp [objSet, objGet, h, ih]
    · simp [objSet, objGet, h, ih]

theorem fold_sections_knull (ss : List Section) (m : JsObj) (r : JsVal)
    (h : objGet m JsKey.knull = some r) :
    objGet (ss.foldl
      (fun sectionsMap s =>
        if reIgnoreSection (trimStr s.name) then sectionsMap
        else objSet sectionsMap (JsKey.kid s.id) (JsVal.vparsed (formatContent s.name)))
      m) JsKey.knull = some r := by
  induction ss generalizing m with
  | nil => simpa using h
  | cons s ss ih =>
    simp only [List.foldl_cons]
    apply ih
    split
    · exact h
    · rw [objGet_knull_objSet_kid]
      exact h

/-! ## Claim theorems -/

/-- C1 counterexample: on the input `Doc (http://x)` of the first hypertext
form, `formatContent` does not put the label into `text` and the URL into
`link`; the two fields come out the other way around. -/
theorem c1_counterexample :
    formatContent ("Doc (http://x)".toList)
        = { text := some ("http://x".toList), tag := none, link := some ("Doc".toList) }
      ∧ (formatContent ("Doc (http://x)".toList)).text ≠ some ("Doc".toList)
      ∧ (formatContent ("Doc (http://x)".toList)).link ≠ some ("http://x".toList) := by
  decide

/-- C2: `formatDate` on a well-formed `date_added` renders the numeric month,
then the four-digit year, then a comma and the day -- not `Month D, YYYY`:
the destructuring in todoist.js line 49 binds `day` to the year group and
`year` to the day group. -/
theorem c2_formatDate_swapped :
    formatDate ("2020-01-15T10:00:00Z".toList) = some ("01 2020, 15".toList)
      ∧ formatDate ("2020-01-15T10:00:00Z".toList) ≠ some ("01 15, 2020".toList) := by
  decide

/-- C3: on `[A(parent=root), B(parent=A, ignore-marked), C(parent=B),
D(parent=root)]`, all in section 7 of the map, `formatProjectItems` returns
exactly the tasks for A and D in that order and no category ids. -/
theorem c3_filter_example :
    formatProjectItems
      [ { id := 1, parent_id := none, section_id := some 7,
          content := "Task A".toList, checked := 0,
          date_added := "2020-01-02".toList, priority := 1 },
        { id := 2, parent_id := some 1, section_id := some 7,
          content := "Task B ✖".toList, checked := 0,
          date_added := "2020-01-03".toList, priority := 1 },
        { id := 3, parent_id := some 2, section_id := some 7,
          content := "Task C".toList, checked := 0,
          date_added := "2020-01-04".toList, priority := 1 },
        { id := 4, parent_id := none, section_id := some 7,
          content := "Task D".toList, checked := 1,
          date_added := "2020-03-04".toList, priority := 2 } ]
      [(JsKey.knull, JsVal.vstr ROOT_SECTION),
       (JsKey.kid 7, JsVal.vparsed (formatContent ("Sec".toList)))]
    = some
        ([ { checked := false, dateAdded := "01 2020, 02".toList, id := 1,
             parentId := none, sectionId := some 7, priority := 1,
             content := { text := some ("Task A".toList), tag := none, link := none } },
           { checked := true, dateAdded := "03 2020, 04".toList, id := 4,
             parentId := none, sectionId := some 7, priority := 2,
             content := { text := some ("Task D".toList), tag := none, link := none } } ],
         []) := by
  decide

/-- C7: the sentinel `"null"` key of every built SectionMap maps to the fixed
`ROOT_SECTION` label -- section records only ever write numeric keys, so no
input can remove or overwrite it -- and calling `formatProjectItems` without a
map uses exactly the sentinel-only object. -/
theorem c7_root_sentinel :
    (∀ sections : List Section,
        objGet (getSectionsGroupedByProjectId sections) JsKey.knull
          = some (JsVal.vstr ROOT_SECTION))
      ∧ (∀ items : List Item,
          formatProjectItemsJS items none = formatProjectItems items defaultSectionMap) := by
  constructor
  · intro sections
    apply fold_sections_knull
    rfl
  · intro items
    rfl

/-- C9: calling `getProjectArchivedTasks` with an `undefined` section map
throws a TypeError synchronously (the outer `Except.error ()`), whatever the
fetch capability would have answered -- no query is consulted. -/
theorem c9_undefined_map_throws :
    ∀ (ε : Type) (projectId : Nat) (parentIds : Option (List Int))
      (fetchProject fetchSection : Nat → Except ε Page)
      (fetchParent : Int → Except ε Page),
      getProjectArchivedTasksJS projectId none parentIds
          fetchProject fetchSection fetchParent
        = Except.error () := by
  intro ε projectId parentIds fetchProject fetchSection fetchParent
  rfl

theorem archiveLoop_spec (ps : List Page) (last : Page) (unused : List Page) :
    ∀ data : Page, (∀ p ∈ ps, p.has_more = true) → last.has_more = false →
      data.has_more = true →
      archiveLoop (ps ++ last :: unused) data
        = some ({ items := data.items ++ (ps.map Page.items).flatten ++ last.items,
                  has_more := false, next_cursor := last.next_cursor },
                data.next_cursor :: ps.map Page.next_cursor) := by
  induction ps with
  | nil =>
    intro data _ hlast hd
    cases unused with
    | nil => simp [archiveLoop, mergePage, hd, hlast]
    | cons u us => simp [archiveLoop, mergePage, hd, hlast]
  | cons q ps ih =>
    intro data hps hlast hd
    have hq : q.has_more = true := hps q (List.mem_cons_self _ _)
    have hmerge : (mergePage data q).has_more = true := hq
    rw [List.cons_append]
    show (if data.has_more = true then
        (archiveLoop (ps ++ last :: unused) (mergePage data q)).map
          (fun pc => (pc.1, data.next_cursor :: pc.2))
      else some (data, [])) = _
    rw [if_pos hd,
      ih (mergePage data q) (fun p hp => hps p (List.mem_cons_of_mem _ hp)) hlast hmerge]
    simp [mergePage, List.append_assoc]

/-- C5: for every page sequence in which an initial segment signals more data
and the following page does not, `_getArchivedProjectItems` issues exactly one
call per consumed page, sends each call the cursor of the page before it, and
returns the concatenation of the consumed pages' items (with the final page's
more-flag and cursor). -/
theorem c5_pagination (prefixPages : List Page) (last : Page) (unused : List Page)
    (hpre : ∀ p ∈ prefixPages, p.has_more = true) (hlast : last.has_more = false) :
    getArchivedProjectItemsModel (prefixPages ++ last :: unused)
      = some ({ items := (prefixPages.map Page.items).flatten ++ last.items,
                has_more := false, next_cursor := last.next_cursor },
              prefixPages.map Page.next_cursor) := by
  cases prefixPages with
  | nil =>
    obtain ⟨li, lh, lc⟩ := last
    cases lh with
    | false =>
      cases unused with
      | nil => simp [getArchivedProjectItemsModel, archiveLoop]
      | cons u us => simp [getArchivedProjectItemsModel, archiveLoop]
    | true => cases hlast
  | cons p ps =>
    show archiveLoop (ps ++ last :: unused) p = _
    rw [archiveLoop_spec ps last unused p
      (fun q hq => hpre q (List.mem_cons_of_mem _ hq)) hlast
      (hpre p (List.mem_cons_self _ _))]
    simp

/-- Witness for C5: the two-page instance of the claim (page 1 has more data
and cursor "c1", page 2 does not): two calls, cursor "c1" sent on the second,
items concatenated in fetch order. -/
theorem c5_pagination_witness :
    getArchivedProjectItemsModel
      [ { items := [⟨1, none, none, ['a'], 0, [], 1⟩],
          has_more := true, next_cursor := some ['c', '1'] },
        { items := [⟨2, none, none, ['b'], 0, [], 1⟩],
          has_more := false, next_cursor := none } ]
      = some ({ items := [⟨1, none, none, ['a'], 0, [], 1⟩,
                          ⟨2, none, none, ['b'], 0, [], 1⟩],
                has_more := false, next_cursor := none },
              [some ['c', '1']]) :=
  (c5_pagination
    [{ items := [⟨1, none, none, ['a'], 0, [], 1⟩],
       has_more := true, next_cursor := some ['c', '1'] }]
    { items := [⟨2, none, none, ['b'], 0, [], 1⟩],
      has_more := false, next_cursor := none }
    [] (by decide) (by decide)).trans rfl

theorem seqExcept_first_error {ε α : Type} (l : List (Except ε α))
    (h : ∃ e, Except.error e ∈ l) :
    ∃ e, Except.error e ∈ l ∧ seqExcept l = Except.error e := by
  induction l with
  | nil =>
    obtain ⟨e, he⟩ := h
    simp at he
  | cons x xs ih =>
    cases x with
    | error e => exact ⟨e, List.mem_cons_self _ _, by simp [seqExcept]⟩
    | ok v =>
      obtain ⟨e0, he0⟩ := h
      have hx : Except.error e0 ∈ xs := by
        rcases List.mem_cons.mp he0 with h1 | h2
        · cases h1
        · exact h2
      obtain ⟨e, hmem, hseq⟩ := ih ⟨e0, hx⟩
      exact ⟨e, List.mem_cons_of_mem _ hmem, by simp [seqExcept, hseq]⟩

/-- C6: if any one of the fan-out queries of `getProjectArchivedTasks`
rejects, the whole aggregation rejects with one of the rejecting queries'
errors, unmodified, and no task list is returned. -/
theorem c6_fail_fast {ε : Type} (projectId : Nat) (m : JsObj)
    (parentIds : Option (List Int)) (fp fs : Nat → Except ε Page)
    (fpar : Int → Except ε Page)
    (h : ∃ e, Except.error e ∈ gpatDims projectId m parentIds fp fs fpar) :
    (∃ e, Except.error e ∈ gpatDims projectId m parentIds fp fs fpar
        ∧ getProjectArchivedTasks projectId m parentIds fp fs fpar = Except.error e)
      ∧ ∀ ts, getProjectArchivedTasks projectId m parentIds fp fs fpar
          ≠ Except.ok ts := by
  obtain ⟨e, hmem, hseq⟩ := seqExcept_first_error _ h
  refine ⟨⟨e, hmem, ?_⟩, ?_⟩
  · unfold getProjectArchivedTasks
    rw [hseq]
    rfl
  · intro ts hok
    unfold getProjectArchivedTasks at hok
    rw [hseq] at hok
    cases hok

/-- Witness for C6 at a concrete instance where the project-wide query
rejects with error 42. -/
theorem c6_fail_fast_witness :
    (∃ e, Except.error e ∈ gpatDims 5 defaultSectionMap none
            (fun _ => Except.error (42 : Nat))
            (fun _ => Except.ok { items := [], has_more := false, next_cursor := none })
            (fun _ => Except.ok { items := [], has_more := false, next_cursor := none })
        ∧ getProjectArchivedTasks 5 defaultSectionMap none
            (fun _ => Except.error (42 : Nat))
            (fun _ => Except.ok { items := [], has_more := false, next_cursor := none })
            (fun _ => Except.ok { items := [], has_more := false, next_cursor := none })
          = Except.error e)
      ∧ ∀ ts, getProjectArchivedTasks 5 defaultSectionMap none
            (fun _ => Except.error (42 : Nat))
            (fun _ => Except.ok { items := [], has_more := false, next_cursor := none })
            (fun _ => Except.ok { items := [], has_more := false, next_cursor := none })
          ≠ Except.ok ts :=
  c6_fail_fast 5 defaultSectionMap none _ _ _
    ⟨some 42, show Except.error (some 42) ∈ [Except.error (some 42)] from
      List.mem_singleton_self _⟩

theorem seqExcept_ok_append {ε α : Type} (l1 l2 : List (Except ε α))
    (v1 v2 : List α) (h1 : seqExcept l1 = Except.ok v1)
    (h2 : seqExcept l2 = Except.ok v2) :
    seqExcept (l1 ++ l2) = Except.ok (v1 ++ v2) := by
  induction l1 generalizing v1 with
  | nil =>
    simp only [seqExcept, Except.ok.injEq] at h1
    subst h1
    simpa using h2
  | cons x xs ih =>
    cases x with
    | error e => simp [seqExcept] at h1
    | ok v =>
      cases hxs : seqExcept xs with
      | error e => simp [seqExcept, hxs] at h1
      | ok vs =>
        simp only [seqExcept, hxs, Except.ok.injEq] at h1
        subst h1
        simp [seqExcept, ih vs hxs, List.cons_append]

theorem seqExcept_map_ok {ε α β : Type} (L : List β) (f : β → Except ε α)
    (g : β → α) (h : ∀ b ∈ L, f b = Except.ok (g b)) :
    seqExcept (L.map f) = Except.ok (L.map g) := by
  induction L with
  | nil => rfl
  | cons b L ih =>
    have hb := h b (List.mem_cons_self _ _)
    have hL := ih (fun b hb => h b (List.mem_cons_of_mem _ hb))
    simp [seqExcept, hb, hL]

/-- C10: when every dimension's query succeeds, the flattened result of
`getProjectArchivedTasks` is the project-wide tasks, then each section's tasks
in the section map's key enumeration order, then each supplied ancestor's
tasks in the order of the given parent ids. -/
theorem c10_flatten_order {ε : Type} (projectId : Nat) (m : JsObj)
    (parentIds : Option (List Int)) (fp fs : Nat → Except ε Page)
    (fpar : Int → Except ε Page) (t0 : List Task)
    (tsec : Nat → List Task) (tpar : Int → List Task)
    (h0 : getTasks m (fp projectId) = Except.ok t0)
    (hs : ∀ sid ∈ sectionIdsOf m, getTasks m (fs sid) = Except.ok (tsec sid))
    (hp : ∀ p ∈ parentList parentIds, getTasks m (fpar p) = Except.ok (tpar p)) :
    getProjectArchivedTasks projectId m parentIds fp fs fpar
      = Except.ok (t0 ++ ((sectionIdsOf m).map tsec).flatten
          ++ ((parentList parentIds).map tpar).flatten) := by
  have hsec := seqExcept_map_ok (sectionIdsOf m) (fun sid => getTasks m (fs sid)) tsec hs
  have hpar := seqExcept_map_ok (parentList parentIds)
    (fun p => getTasks m (fpar p)) tpar hp
  have hcons : seqExcept (getTasks m (fp projectId)
        :: (sectionIdsOf m).map (fun sid => getTasks m (fs sid)))
      = Except.ok (t0 :: (sectionIdsOf m).map tsec) := by
    simp [seqExcept, h0, hsec]
  have hall := seqExcept_ok_append _ _ _ _ hcons hpar
  unfold getProjectArchivedTasks gpatDims
  rw [hall]
  simp [Except.map, List.flatten_cons, List.flatten_append, List.append_assoc]

/-- Witness for C10: one section (id 3) and one ancestor (id 9); the fetched
items come out as project task, then section task, then ancestor task. -/
theorem c10_flatten_order_witness :
    getProjectArchivedTasks (ε := Unit) 5
      [(JsKey.knull, JsVal.vstr ROOT_SECTION),
       (JsKey.kid 3, JsVal.vparsed (formatContent ['S']))]
      (some [9])
      (fun _ => Except.ok { items := [⟨1, none, none, ['a'], 0,
          "2020-01-02".toList, 1⟩], has_more := false, next_cursor := none })
      (fun _ => Except.ok { items := [⟨2, none, none, ['b'], 0,
          "2020-01-03".toList, 1⟩], has_more := false, next_cursor := none })
      (fun _ => Except.ok { items := [⟨3, none, none, ['c'], 0,
          "2020-01-04".toList, 1⟩], has_more := false, next_cursor := none })
      = Except.ok
          [ { checked := false, dateAdded := "01 2020, 02".toList, id := 1,
              parentId := none, sectionId := none, priority := 1,
              content := { text := some ['a'], tag := none, link := none } },
            { checked := false, dateAdded := "01 2020, 03".toList, id := 2,
              parentId := none, sectionId := none, priority := 1,
              content := { text := some ['b'], tag := none, link := none } },
            { checked := false, dateAdded := "01 2020, 04".toList, id := 3,
              parentId := none, sectionId := none, priority := 1,
              content := { text := some ['c'], tag := none, link := none } } ] := by
  have h := c10_flatten_order (ε := Unit) 5
    [(JsKey.knull, JsVal.vstr ROOT_SECTION),
     (JsKey.kid 3, JsVal.vparsed (formatContent ['S']))]
    (some [9])
    (fun _ => Except.ok { items := [⟨1, none, none, ['a'], 0,
        "2020-01-02".toList, 1⟩], has_more := false, next_cursor := none })
    (fun _ => Except.ok { items := [⟨2, none, none, ['b'], 0,
        "2020-01-03".toList, 1⟩], has_more := false, next_cursor := none })
    (fun _ => Except.ok { items := [⟨3, none, none, ['c'], 0,
        "2020-01-04".toList, 1⟩], has_more := false, next_cursor := none })
    [{ checked := false, dateAdded := "01 2020, 02".toList, id := 1,
       parentId := none, sectionId := none, priority := 1,
       content := { text := some ['a'], tag := none, link := none } }]
    (fun _ => [{ checked := false, dateAdded := "01 2020, 03".toList, id := 2,
                 parentId := none, sectionId := none, priority := 1,
                 content := { text := some ['b'], tag := none, link := none } }])
    (fun _ => [{ checked := false, dateAdded := "01 2020, 04".toList, id := 3,
                 parentId := none, sectionId := none, priority := 1,
                 content := { text := some ['c'], tag := none, link := none } }])
    rfl
    (by
      intro sid hsid
      have hs3 : sid = 3 := by simpa [sectionIdsOf, sortAsc, insertAsc] using hsid
      subst hs3
      rfl)
    (by
      intro p hps
      have hp9 : p = 9 := by simpa [parentList] using hps
      subst hp9
      rfl)
  exact h.trans rfl

theorem formatItem_id (it : Item) (tk : Task) (h : formatItem it = some tk) :
    tk.id = it.id := by
  unfold formatItem at h
  cases hfd : formatDate it.date_added with
  | none => rw [hfd] at h; cases h
  | some d =>
    rw [hfd] at h
    simp only [Option.some.injEq] at h
    rw [← h]

theorem fpiGo_cs_prov (m : JsObj) (items : List Item) :
    ∀ (ls : Int) (ts : List Task) (cs : List Int),
      fpiGo m items ls = some (ts, cs) →
      ∀ x ∈ cs, ∃ it, it ∈ items ∧ it.id = x ∧ isCatI it = true := by
  induction items with
  | nil =>
    intro ls ts cs h x hx
    simp only [fpiGo, Option.some.injEq, Prod.mk.injEq] at h
    rw [← h.2] at hx
    simp at hx
  | cons it rest ih =>
    intro ls ts cs h x hx
    simp only [fpiGo] at h
    by_cases h1 : inSec m it = true
    · rw [if_pos h1] at h
      by_cases h2 : isIgn it = true
      · rw [if_pos h2] at h
        obtain ⟨it2, hm2, hrest⟩ := ih _ _ _ h x hx
        exact ⟨it2, List.mem_cons_of_mem _ hm2, hrest⟩
      · rw [if_neg h2] at h
        cases hrec : fpiGo m rest (nextSkip it ls) with
        | none =>
          rw [hrec] at h
          cases hsk : (looseEq it.parent_id ls || isCatI it) with
          | true => simp [hsk] at h
          | false =>
            cases hfi : formatItem it with
            | none => simp [hsk, hfi] at h
            | some tk => simp [hsk, hfi] at h
        | some tc =>
          obtain ⟨ts0, cs0⟩ := tc
          rw [hrec] at h
          have hcs : cs = if isCatI it then it.id :: cs0 else cs0 := by
            cases hsk : (looseEq it.parent_id ls || isCatI it) with
            | true => simp only [hsk] at h; simp at h; exact h.2.symm
            | false =>
              cases hfi : formatItem it with
              | none => simp [hsk, hfi] at h
              | some tk =>
                simp only [hsk] at h; simp [hfi] at h; exact h.2.symm
          rw [hcs] at hx
          by_cases hcat : isCatI it = true
          · rw [if_pos hcat] at hx
            rcases List.mem_cons.mp hx with hx1 | hx2
            · exact ⟨it, List.mem_cons_self _ _, hx1.symm, hcat⟩
            · obtain ⟨it2, hm2, hrest⟩ := ih _ _ _ hrec x hx2
              exact ⟨it2, List.mem_cons_of_mem _ hm2, hrest⟩
          · rw [if_neg hcat] at hx
            obtain ⟨it2, hm2, hrest⟩ := ih _ _ _ hrec x hx
            exact ⟨it2, List.mem_cons_of_mem _ hm2, hrest⟩
    · rw [if_neg h1] at h
      obtain ⟨it2, hm2, hrest⟩ := ih _ _ _ h x hx
      exact ⟨it2, List.mem_cons_of_mem _ hm2, hrest⟩

theorem fpiGo_ts_prov (m : JsObj) (items : List Item) :
    ∀ (ls : Int) (ts : List Task) (cs : List Int),
      fpiGo m items ls = some (ts, cs) →
      ∀ t ∈ ts, ∃ it, it ∈ items ∧ it.id = t.id ∧ isCatI it = false := by
  induction items with
  | nil =>
    intro ls ts cs h t ht
    simp only [fpiGo, Option.some.injEq, Prod.mk.injEq] at h
    rw [← h.1] at ht
    simp at ht
  | cons it rest ih =>
    intro ls ts cs h t ht
    simp only [fpiGo] at h
    by_cases h1 : inSec m it = true
    · rw [if_pos h1] at h
      by_cases h2 : isIgn it = true
      · rw [if_pos h2] at h
        obtain ⟨it2, hm2, hrest⟩ := ih _ _ _ h t ht
        exact ⟨it2, List.mem_cons_of_mem _ hm2, hrest⟩
      · rw [if_neg h2] at h
        cases hrec : fpiGo m rest (nextSkip it ls) with
        | none =>
          rw [hrec] at h
          cases hsk : (looseEq it.parent_id ls || isCatI it) with
          | true => simp [hsk] at h
          | false =>
            cases hfi : formatItem it with
            | none => simp [hsk, hfi] at h
            | some tk => simp [hsk, hfi] at h
        | some tc =>
          obtain ⟨ts0, cs0⟩ := tc
          rw [hrec] at h
          cases hsk : (looseEq it.parent_id ls || isCatI it) with
          | true =>
            simp only [hsk] at h
            simp at h
            rw [← h.1] at ht
            obtain ⟨it2, hm2, hrest⟩ := ih _ _ _ hrec t ht
            exact ⟨it2, List.mem_cons_of_mem _ hm2, hrest⟩
          | false =>
            have hcat : isCatI it = false := (Bool.or_eq_false_iff.mp hsk).2
            cases hfi : formatItem it with
            | none => simp [hsk, hfi] at h
            | some tk =>
              simp only [hsk] at h
              simp [hfi] at h
              rw [← h.1] at ht
              rcases List.mem_cons.mp ht with ht1 | ht2
              · subst ht1
                exact ⟨it, List.mem_cons_self _ _, (formatItem_id it t hfi).symm ▸ rfl, hcat⟩
              · obtain ⟨it2, hm2, hrest⟩ := ih _ _ _ hrec t ht2
                exact ⟨it2, List.mem_cons_of_mem _ hm2, hrest⟩
    · rw [if_neg h1] at h
      obtain ⟨it2, hm2, hrest⟩ := ih _ _ _ h t ht
      exact ⟨it2, List.mem_cons_of_mem _ hm2, hrest⟩

theorem fpiGo_cat_recorded (m : JsObj) (items : List Item) :
    ∀ (ls : Int) (ts : List Task) (cs : List Int),
      fpiGo m items ls = some (ts, cs) →
      ∀ it ∈ items, inSec m it = true → isIgn it = false → isCatI it = true →
        it.id ∈ cs := by
  induction items with
  | nil => intro ls ts cs h it hit; simp at hit
  | cons it0 rest ih =>
    intro ls ts cs h it hit hsec hign hcat
    simp only [fpiGo] at h
    rcases List.mem_cons.mp hit with heq | hmem
    · subst heq
      rw [if_pos hsec, if_neg (by simp [hign])] at h
      have hsk : (looseEq it.parent_id ls || isCatI it) = true := by
        simp [hcat]
      cases hrec : fpiGo m rest (nextSkip it ls) with
      | none => rw [hrec] at h; simp [hsk] at h
      | some tc =>
        obtain ⟨ts0, cs0⟩ := tc
        rw [hrec] at h
        simp only [hsk] at h
        simp [hcat] at h
        rw [← h.2]
        exact List.mem_cons_self _ _
    · by_cases h1 : inSec m it0 = true
      · rw [if_pos h1] at h
        by_cases h2 : isIgn it0 = true
        · rw [if_pos h2] at h
          exact ih _ _ _ h it hmem hsec hign hcat
        · rw [if_neg h2] at h
          cases hrec : fpiGo m rest (nextSkip it0 ls) with
          | none =>
            rw [hrec] at h
            cases hsk : (looseEq it0.parent_id ls || isCatI it0) with
            | true => simp [hsk] at h
            | false =>
              cases hfi : formatItem it0 with
              | none => simp [hsk, hfi] at h
              | some tk => simp [hsk, hfi] at h
          | some tc =>
            obtain ⟨ts0, cs0⟩ := tc
            rw [hrec] at h
            have hcs : cs = if isCatI it0 then it0.id :: cs0 else cs0 := by
              cases hsk : (looseEq it0.parent_id ls || isCatI it0) with
              | true => simp only [hsk] at h; simp at h; exact h.2.symm
              | false =>
                cases hfi : formatItem it0 with
                | none => simp [hsk, hfi] at h
                | some tk =>
                  simp only [hsk] at h; simp [hfi] at h; exact h.2.symm
            have hin := ih _ _ _ hrec it hmem hsec hign hcat
            rw [hcs]
            by_cases hcat0 : isCatI it0 = true
            · rw [if_pos hcat0]
              exact List.mem_cons_of_mem _ hin
            · rw [if_neg hcat0]
              exact hin
      · rw [if_neg h1] at h
        exact ih _ _ _ h it hmem hsec hign hcat

/-- C4: assuming the data model's id-uniqueness, the category ids returned by
`formatProjectItems` are disjoint from the ids of the returned tasks, and every
in-section, non-ignored item whose content ends in `:` has its id recorded in
the category list while never being emitted as a task. -/
theorem c4_categories_disjoint (items : List Item) (m : JsObj) (ts : List Task)
    (cs : List Int) (hnd : (items.map Item.id).Nodup)
    (h : formatProjectItems items m = some (ts, cs)) :
    (∀ x ∈ cs, x ∉ ts.map Task.id)
      ∧ ∀ it ∈ items, inSec m it = true → isIgn it = false → isCatI it = true →
          it.id ∈ cs := by
  constructor
  · intro x hx hmem
    obtain ⟨itc, hmc, hidc, hcatc⟩ := fpiGo_cs_prov m items _ _ _ h x hx
    rw [List.mem_map] at hmem
    obtain ⟨t, ht, hid⟩ := hmem
    obtain ⟨itt, hmt, hidt, hcatt⟩ := fpiGo_ts_prov m items _ _ _ h t ht
    have heq : itc = itt :=
      List.inj_on_of_nodup_map hnd hmc hmt (by rw [hidc, hidt, hid])
    rw [heq, hcatt] at hcatc
    cases hcatc
  · intro it hit hsec hign hcat
    exact fpiGo_cat_recorded m items _ _ _ h it hit hsec hign hcat

/-- Witness for C4: a category item `Work:` (id 1) and a plain item `T`
(id 2) in section 7. -/
theorem c4_categories_disjoint_witness :
    (∀ x ∈ [(1 : Int)],
        x ∉ ([ { checked := false, dateAdded := "01 2020, 03".toList, id := 2,
                 parentId := none, sectionId := some 7, priority := 1,
                 content := { text := some ['T'], tag := none, link := none } } ]
          : List Task).map Task.id)
      ∧ ∀ it ∈ [ ({ id := 1, parent_id := none, section_id := some 7,
                    content := "Work:".toList, checked := 0,
                    date_added := "2020-01-02".toList, priority := 1 } : Item),
                 { id := 2, parent_id := none, section_id := some 7,
                   content := ['T'], checked := 0,
                   date_added := "2020-01-03".toList, priority := 1 } ],
          inSec [(JsKey.knull, JsVal.vstr ROOT_SECTION),
                 (JsKey.kid 7, JsVal.vparsed (formatContent ['S']))] it = true →
          isIgn it = false → isCatI it = true → it.id ∈ [(1 : Int)] :=
  c4_categories_disjoint
    [ { id := 1, parent_id := none, section_id := some 7,
        content := "Work:".toList, checked := 0,
        date_added := "2020-01-02".toList, priority := 1 },
      { id := 2, parent_id := none, section_id := some 7,
        content := ['T'], checked := 0,
        date_added := "2020-01-03".toList, priority := 1 } ]
    [(JsKey.knull, JsVal.vstr ROOT_SECTION),
     (JsKey.kid 7, JsVal.vparsed (formatContent ['S']))]
    _ _ (by decide) rfl

/-! ## takeWhile/dropWhile toolkit for the matcher extension lemmas -/

theorem dropWhile_head_false (p : Char → Bool) (l : Str) (c : Char) (r : Str)
    (h : l.dropWhile p = c :: r) : p c = false := by
  induction l with
  | nil => cases h
  | cons a l ih =>
    rw [List.dropWhile_cons] at h
    by_cases ha : p a = true
    · rw [if_pos ha] at h
      exact ih h
    · rw [if_neg ha] at h
      injection h with h1 h2
      subst h1
      simpa using ha

theorem tw_append_stop (p : Char → Bool) (l d : Str) (c : Char) (r : Str)
    (h : l.dropWhile p = c :: r) :
    (l ++ d).takeWhile p = l.takeWhile p ∧ (l ++ d).dropWhile p = (c :: r) ++ d := by
  induction l with
  | nil => cases h
  | cons a l ih =>
    rw [List.dropWhile_cons] at h
    by_cases ha : p a = true
    · rw [if_pos ha] at h
      obtain ⟨h1, h2⟩ := ih h
      constructor
      · simp only [List.cons_append, List.takeWhile_cons, ha, if_pos, h1]
      · simp only [List.cons_append, List.dropWhile_cons, ha, if_pos, h2]
    · rw [if_neg ha] at h
      injection h with h1 h2
      subst h1; subst h2
      constructor
      · simp [List.takeWhile_cons, ha]
      · simp [List.dropWhile_cons, ha]

theorem tw_append_all (p : Char → Bool) (l d : Str) (h : l.dropWhile p = []) :
    (l ++ d).takeWhile p = l ++ d.takeWhile p
      ∧ (l ++ d).dropWhile p = d.dropWhile p := by
  induction l with
  | nil => simp
  | cons a l ih =>
    rw [List.dropWhile_cons] at h
    by_cases ha : p a = true
    · rw [if_pos ha] at h
      obtain ⟨h1, h2⟩ := ih h
      constructor
      · simp [List.takeWhile_cons, ha, h1]
      · simp [List.dropWhile_cons, ha, h2]
    · rw [if_neg ha] at h
      cases h

theorem takeWhile_of_dropWhile_nil (p : Char → Bool) (l : Str)
    (h : l.dropWhile p = []) : l.takeWhile p = l := by
  have := List.takeWhile_append_dropWhile (p := p) (l := l)
  rw [h, List.append_nil] at this
  exact this

theorem takeWhile_all (p : Char → Bool) (l : Str) (h : ∀ c ∈ l, p c = true) :
    l.takeWhile p = l := by
  induction l with
  | nil => rfl
  | cons a l ih =>
    have ha := h a (List.mem_cons_self _ _)
    simp [List.takeWhile_cons, ha, ih (fun c hc => h c (List.mem_cons_of_mem _ hc))]

theorem dropWhile_all (p : Char → Bool) (l : Str) (h : ∀ c ∈ l, p c = true) :
    l.dropWhile p = [] := by
  induction l with
  | nil => rfl
  | cons a l ih =>
    have ha := h a (List.mem_cons_self _ _)
    simp [List.dropWhile_cons, ha, ih (fun c hc => h c (List.mem_cons_of_mem _ hc))]

theorem mem_of_mem_takeWhile (p : Char → Bool) (l : Str) (c : Char)
    (h : c ∈ l.takeWhile p) : c ∈ l := by
  induction l with
  | nil => simp at h
  | cons a l ih =>
    rw [List.takeWhile_cons] at h
    by_cases ha : p a = true
    · rw [if_pos ha] at h
      rcases List.mem_cons.mp h with h1 | h2
      · exact h1 ▸ List.mem_cons_self _ _
      · exact List.mem_cons_of_mem _ (ih h2)
    · rw [if_neg ha] at h
      simp at h

theorem takeWhile_length_le_append (p : Char → Bool) (l d : Str) :
    (l.takeWhile p).length ≤ ((l ++ d).takeWhile p).length := by
  cases hdw : l.dropWhile p with
  | nil =>
    rw [(tw_append_all p l d hdw).1, takeWhile_of_dropWhile_nil p l hdw]
    simp
  | cons c r =>
    rw [(tw_append_stop p l d c r hdw).1]

/-! ## lastCloseSplit toolkit -/

theorem lcs_append_last (U : Str) :
    lastCloseSplit true (U ++ [')']) = some (U, []) := by
  induction U with
  | nil => rfl
  | cons c U ih => simp [lastCloseSplit, ih]

theorem lcs_no_close (okA : Bool) (D : Str) (h : ∀ c ∈ D, c ≠ ')') :
    lastCloseSplit okA D = none := by
  induction D with
  | nil => rfl
  | cons c D ih =>
    have hc : c ≠ ')' := h c (List.mem_cons_self _ _)
    have hD := ih (fun x hx => h x (List.mem_cons_of_mem _ hx))
    simp [lastCloseSplit, hD, hc]

theorem lcs_append_noclose (E : Str) (hE : ∀ c ∈ E, c ≠ ')') (okA : Bool) (D : Str) :
    lastCloseSplit okA (D ++ E)
      = (lastCloseSplit (bHolds okA E) D).map (fun ut => (ut.1, ut.2 ++ E)) := by
  induction D with
  | nil => simp [lastCloseSplit, lcs_no_close okA E hE]
  | cons c D ih =>
    have hb : bHolds okA (D ++ E) = bHolds (bHolds okA E) D := by
      cases D <;> simp [bHolds]
    rw [List.cons_append]
    simp only [lastCloseSplit, ih, hb]
    cases hD : lastCloseSplit (bHolds okA E) D with
    | some ut => simp
    | none =>
      simp only [Option.map_none']
      by_cases hc : (c = ')' && bHolds (bHolds okA E) D) = true
      · rw [if_pos hc, if_pos hc]
        rfl
      · rw [if_neg hc, if_neg hc]
        rfl

/-! ## Character class facts -/

theorem isWS_not_word (c : Char) (h : isWS c = true) : isWordChar c = false := by
  unfold isWS at h
  simp only [Bool.or_eq_true, decide_eq_true_eq] at h
  rcases h with ((((h | h) | h) | h) | h) | h <;> subst h <;> decide

theorem isWS_ne_close (c : Char) (h : isWS c = true) : c ≠ ')' := by
  intro hc
  subst hc
  exact absurd h (by decide)

/-! ## RE_YT_PLAYLIST suffix facts -/

theorem ytMatch_props (d : Str) (h : ytMatch d = true) :
    d ≠ [] ∧ okAfter d = true ∧ ∀ c ∈ d, c ≠ ')' := by
  unfold ytMatch at h
  cases hdw : d.dropWhile isWS with
  | nil => rw [hdw] at h; cases h
  | cons c s2 =>
    rw [hdw] at h
    simp only [Bool.and_eq_true, decide_eq_true_eq, beq_iff_eq] at h
    obtain ⟨hc, hyt⟩ := h
    subst hc
    have hdec : d = d.takeWhile isWS ++ '-' :: s2 := by
      conv_lhs => rw [← List.takeWhile_append_dropWhile (p := isWS) (l := d)]
      rw [hdw]
    have hs2 : s2 = s2.takeWhile isWS ++ ['Y', 'o', 'u', 'T', 'u', 'b', 'e'] := by
      conv_lhs => rw [← List.takeWhile_append_dropWhile (p := isWS) (l := s2)]
      rw [hyt]
    refine ⟨?_, ?_, ?_⟩
    · rw [hdec]
      simp
    · rw [hdec]
      cases htw : d.takeWhile isWS with
      | nil =>
        rw [List.nil_append]
        show (!isWordChar '-') = true
        decide
      | cons w ws =>
        have hw : isWS w = true := by
          have hmem : w ∈ d.takeWhile isWS := by
            rw [htw]; exact List.mem_cons_self _ _
          exact List.mem_takeWhile_imp hmem
        simp [okAfter, List.cons_append, isWS_not_word w hw]
    · intro c hc
      rw [hdec] at hc
      rcases List.mem_append.mp hc with h1 | h2
      · exact isWS_ne_close c (List.mem_takeWhile_imp h1)
      · rcases List.mem_cons.mp h2 with h3 | h4
        · subst h3; decide
        · rw [hs2] at h4
          rcases List.mem_append.mp h4 with h5 | h6
          · exact isWS_ne_close c (List.mem_takeWhile_imp h5)
          · intro hcc
            subst hcc
            exact absurd h6 (by decide)

/-! ## The leftmost-suffix decomposition produced by removeYouTubeKeyword -/

theorem removeYT_split (c t : Str) (h : removeYouTubeKeyword c = t) :
    t = c ∨ ∃ d, c = t ++ d ∧ ytMatch d = true := by
  induction c generalizing t with
  | nil =>
    left
    rw [← h]
    rfl
  | cons x r ih =>
    rw [removeYouTubeKeyword] at h
    by_cases hyt : ytMatch (x :: r) = true
    · rw [if_pos hyt] at h
      right
      exact ⟨x :: r, by rw [← h]; rfl, hyt⟩
    · rw [if_neg hyt] at h
      rcases ih (removeYouTubeKeyword r) rfl with h1 | ⟨d, hd, hytd⟩
      · left
        rw [← h, h1]
      · right
        refine ⟨d, ?_, hytd⟩
        rw [← h, List.cons_append, ← hd]

/-! ## Extension of the matchers under a YouTube-decoration suffix -/

theorem tagGo_isSome_iff (s3 : Str) (m : Nat) :
    (tagGo s3 m).isSome = true
      ↔ ∃ k, 1 ≤ k ∧ k ≤ m ∧ ∃ c r, s3.drop k = c :: r ∧ isDot c = true := by
  induction m with
  | zero =>
    simp only [tagGo, Option.isSome_none, Bool.false_eq_true, false_iff]
    rintro ⟨k, h1, h2, -⟩
    omega
  | succ m ih =>
    rw [tagGo]
    cases hdrop : s3.drop (m + 1) with
    | nil =>
      show (tagGo s3 m).isSome = true ↔ _
      rw [ih]
      constructor
      · rintro ⟨k, h1, h2, hc⟩
        exact ⟨k, h1, Nat.le_succ_of_le h2, hc⟩
      · rintro ⟨k, h1, h2, c, r, hcr, hdc⟩
        rcases Nat.lt_or_ge k (m + 1) with hlt | hge
        · exact ⟨k, h1, Nat.lt_succ_iff.mp hlt, c, r, hcr, hdc⟩
        · have : k = m + 1 := Nat.le_antisymm h2 hge
          subst this
          rw [hdrop] at hcr
          cases hcr
    | cons c r =>
      show (if isDot c = true then some (List.takeWhile isDot (c :: r))
          else tagGo s3 m).isSome = true ↔ _
      by_cases hdot : isDot c = true
      · rw [if_pos hdot]
        simp only [Option.isSome_some, true_iff]
        exact ⟨m + 1, Nat.succ_le_succ (Nat.zero_le m), Nat.le_refl _, c, r, hdrop, hdot⟩
      · rw [if_neg hdot]
        rw [ih]
        constructor
        · rintro ⟨k, h1, h2, hc⟩
          exact ⟨k, h1, Nat.le_succ_of_le h2, hc⟩
        · rintro ⟨k, h1, h2, c2, r2, hcr, hdc⟩
          rcases Nat.lt_or_ge k (m + 1) with hlt | hge
          · exact ⟨k, h1, Nat.lt_succ_iff.mp hlt, c2, r2, hcr, hdc⟩
          · have : k = m + 1 := Nat.le_antisymm h2 hge
            subst this
            rw [hdrop] at hcr
            injection hcr with hc2 hr2
            subst hc2
            exact absurd hdc hdot

theorem findTagRest_isSome_append (s3 d : Str)
    (h : (findTagRest s3).isSome = true) : (findTagRest (s3 ++ d)).isSome = true := by
  rw [findTagRest, tagGo_isSome_iff] at h ⊢
  obtain ⟨k, h1, h2, c, r, hcr, hdc⟩ := h
  refine ⟨k, h1, Nat.le_trans h2 (takeWhile_length_le_append isWS s3 d),
    c, r ++ d, ?_, hdc⟩
  have hk : k ≤ s3.length := by
    by_contra hgt
    push_neg at hgt
    rw [List.drop_eq_nil_of_le (Nat.le_of_lt hgt)] at hcr
    cases hcr
  rw [List.drop_append_of_le_length hk, hcr, List.cons_append]

theorem matchTag_isSome_append (s d : Str) (h : (matchTag s).isSome = true) :
    (matchTag (s ++ d)).isSome = true := by
  cases s with
  | nil => simp [matchTag] at h
  | cons c s1 =>
    rw [matchTag] at h
    by_cases hc : c = '{'
    · rw [if_pos hc] at h
      by_cases hA : s1.takeWhile (fun c => !(c = '}')) = []
      · rw [if_pos hA] at h
        simp at h
      · rw [if_neg hA] at h
        cases hdw : s1.dropWhile (fun c => !(c = '}')) with
        | nil =>
          rw [hdw] at h
          simp at h
        | cons b s3 =>
          rw [hdw] at h
          replace h : (match findTagRest s3 with
              | some g2 => some (s1.takeWhile (fun c => !(c = '}')), g2)
              | none => none).isSome = true := h
          cases hftr : findTagRest s3 with
          | none =>
            rw [hftr] at h
            simp at h
          | some g2 =>
            rw [List.cons_append, matchTag, if_pos hc]
            obtain ⟨ht1, ht2⟩ := tw_append_stop (fun c => !(c = '}')) s1 d b s3 hdw
            rw [ht1, if_neg hA, ht2]
            have hf2 : (findTagRest (s3 ++ d)).isSome = true :=
              findTagRest_isSome_append s3 d (by rw [hftr]; rfl)
            cases hf3 : findTagRest (s3 ++ d) with
            | none => rw [hf3] at hf2; cases hf2
            | some g3 => simp [List.cons_append, hf3]
    · rw [if_neg hc] at h
      simp at h

theorem parenPart_some_shape (r2 : Str) (U : Str) (h : parenPart r2 = some U) :
    ∃ T, r2 = '(' :: T := by
  cases r2 with
  | nil => cases h
  | cons c T =>
    rw [parenPart] at h
    by_cases hc : c = '('
    · exact ⟨T, by rw [hc]⟩
    · rw [if_neg hc] at h
      cases h

theorem parenPart_append (r2 d U : Str)
    (hd : d ≠ []) (hok : okAfter d = true) (hnp : ∀ c ∈ d, c ≠ ')')
    (h : parenPart r2 = some U) : parenPart (r2 ++ d) = some U := by
  obtain ⟨T, hT⟩ := parenPart_some_shape r2 U h
  subst hT
  rw [parenPart, if_pos rfl] at h
  rw [List.cons_append, parenPart, if_pos rfl]
  cases hA : T.dropWhile isDot with
  | cons a A' =>
    obtain ⟨h1, h2⟩ := tw_append_stop isDot T d a A' hA
    rw [h1, h2]
    rw [hA] at h
    exact h
  | nil =>
    obtain ⟨h1, h2⟩ := tw_append_all isDot T d hA
    have hTT : T.takeWhile isDot = T := takeWhile_of_dropWhile_nil isDot T hA
    rw [h1, h2]
    rw [hA, hTT] at h
    have hE : ∀ x ∈ d.takeWhile isDot, x ≠ ')' :=
      fun x hx => hnp x (mem_of_mem_takeWhile isDot d x hx)
    rw [lcs_append_noclose (d.takeWhile isDot) hE (okAfter (d.dropWhile isDot)) T]
    have hokB : bHolds (okAfter (d.dropWhile isDot)) (d.takeWhile isDot) = true := by
      cases d with
      | nil => exact absurd rfl hd
      | cons dc d' =>
        by_cases hdot : isDot dc = true
        · rw [List.takeWhile_cons, if_pos hdot]
          show (!isWordChar dc) = true
          simpa [okAfter] using hok
        · rw [List.takeWhile_cons, if_neg hdot]
          show okAfter ((dc :: d').dropWhile isDot) = true
          rw [List.dropWhile_cons, if_neg hdot]
          exact hok
    rw [hokB]
    rw [show (okAfter ([] : Str) : Bool) = true from rfl] at h
    cases hlcs : lastCloseSplit true T with
    | none =>
      rw [hlcs] at h
      cases h
    | some ut =>
      obtain ⟨U0, tl⟩ := ut
      rw [hlcs] at h
      simp only [Option.map_some']
      exact h

theorem matchH1_append (s d : Str) (g1 g2 : Str)
    (hd : d ≠ []) (hok : okAfter d = true) (hnp : ∀ c ∈ d, c ≠ ')')
    (h : matchH1 s = some (g1, g2)) : matchH1 (s ++ d) = some (g1, g2) := by
  rw [matchH1] at h
  by_cases hL : s.takeWhile h1Class = []
  · rw [if_pos hL] at h
    cases h
  · rw [if_neg hL] at h
    by_cases hW : (s.dropWhile h1Class).takeWhile isWS = []
    · rw [if_pos hW] at h
      cases h
    · rw [if_neg hW] at h
      cases hpp : parenPart ((s.dropWhile h1Class).dropWhile isWS) with
      | none =>
        rw [hpp] at h
        cases h
      | some U =>
        rw [hpp] at h
        obtain ⟨T, hT⟩ := parenPart_some_shape _ U hpp
        obtain ⟨a, r1', hr1⟩ : ∃ a r1', s.dropWhile h1Class = a :: r1' := by
          cases hx : s.dropWhile h1Class with
          | nil => rw [hx] at hT; simp at hT
          | cons a r1' => exact ⟨a, r1', rfl⟩
        obtain ⟨hs1, hs2⟩ := tw_append_stop h1Class s d a r1' hr1
        rw [matchH1, hs1, if_neg hL, hs2, ← hr1]
        obtain ⟨hw1, hw2⟩ := tw_append_stop isWS (s.dropWhile h1Class) d '(' T hT
        rw [hw1, if_neg hW, hw2]
        have hppd := parenPart_append ('(' :: T) d U hd hok hnp (by rw [← hT]; exact hpp)
        rw [hppd]
        exact h

theorem matchH2_append (s d : Str) (g1 g2 : Str)
    (hd : d ≠ []) (hok : okAfter d = true) (hnp : ∀ c ∈ d, c ≠ ')')
    (h : matchH2 s = some (g1, g2)) : matchH2 (s ++ d) = some (g1, g2) := by
  cases s with
  | nil => cases h
  | cons c s1 =>
    rw [matchH2] at h
    by_cases hc : c = '['
    · rw [if_pos hc] at h
      cases hgl : (s1.takeWhile h1Class).getLast? with
      | none =>
        rw [hgl] at h
        cases h
      | some b =>
        rw [hgl] at h
        replace h : (if b = ']' then
            if (s1.takeWhile h1Class).dropLast = [] then none
            else
              match parenPart ((s1.dropWhile h1Class).dropWhile isWS) with
              | some U => some ((s1.takeWhile h1Class).dropLast, U)
              | none => none
          else none) = some (g1, g2) := h
        by_cases hb : b = ']'
        · rw [if_pos hb] at h
          by_cases hdl : (s1.takeWhile h1Class).dropLast = []
          · rw [if_pos hdl] at h
            cases h
          · rw [if_neg hdl] at h
            cases hpp : parenPart ((s1.dropWhile h1Class).dropWhile isWS) with
            | none =>
              rw [hpp] at h
              cases h
            | some U =>
              rw [hpp] at h
              obtain ⟨T, hT⟩ := parenPart_some_shape _ U hpp
              obtain ⟨a, r1', hr1⟩ : ∃ a r1', s1.dropWhile h1Class = a :: r1' := by
                cases hx : s1.dropWhile h1Class with
                | nil => rw [hx] at hT; simp at hT
                | cons a r1' => exact ⟨a, r1', rfl⟩
              obtain ⟨hs1, hs2⟩ := tw_append_stop h1Class s1 d a r1' hr1
              rw [List.cons_append, matchH2, if_pos hc, hs1, hgl]
              show (if b = ']' then
                  if (s1.takeWhile h1Class).dropLast = [] then none
                  else
                    match parenPart (((s1 ++ d).dropWhile h1Class).dropWhile isWS) with
                    | some U => some ((s1.takeWhile h1Class).dropLast, U)
                    | none => none
                else none) = some (g1, g2)
              rw [if_pos hb, if_neg hdl, hs2, ← hr1]
              obtain ⟨hw1, hw2⟩ := tw_append_stop isWS (s1.dropWhile h1Class) d '(' T hT
              rw [hw2]
              have hppd := parenPart_append ('(' :: T) d U hd hok hnp
                (by rw [← hT]; exact hpp)
              rw [hppd]
              exact h
        · rw [if_neg hb] at h
          cases h
    · rw [if_neg hc] at h
      cases h

/-! ## Inversion facts about the matchers and formatContent -/

theorem strOpt_eq_some (s t : Str) (h : strOpt s = some t) : s = t := by
  unfold strOpt at h
  by_cases hs : s = []
  · rw [if_pos hs] at h
    cases h
  · rw [if_neg hs] at h
    injection h

theorem tw_all_then_stop (p : Char → Bool) (L : Str) (a : Char) (r' : Str)
    (hL : ∀ c ∈ L, p c = true) (ha : p a = false) :
    (L ++ a :: r').takeWhile p = L ∧ (L ++ a :: r').dropWhile p = a :: r' := by
  have hdw : L.dropWhile p = [] := dropWhile_all p L hL
  obtain ⟨h1, h2⟩ := tw_append_all p L (a :: r') hdw
  constructor
  · rw [h1, List.takeWhile_cons, if_neg (by simp [ha]), List.append_nil]
  · rw [h2, List.dropWhile_cons, if_neg (by simp [ha])]

theorem matchTag_none_of_head (s : Str) (h : s.head? ≠ some '{') :
    matchTag s = none := by
  cases s with
  | nil => rfl
  | cons c s1 =>
    have hc : ¬(c = '{') := fun hc => h (by simp [hc])
    rw [matchTag, if_neg hc]

theorem matchTag_some_fst_ne (s a r : Str) (h : matchTag s = some (a, r)) :
    a ≠ [] := by
  cases s with
  | nil => cases h
  | cons c s1 =>
    rw [matchTag] at h
    by_cases hc : c = '{'
    · rw [if_pos hc] at h
      by_cases hA : s1.takeWhile (fun c => !(c = '}')) = []
      · rw [if_pos hA] at h
        cases h
      · rw [if_neg hA] at h
        cases hdw : s1.dropWhile (fun c => !(c = '}')) with
        | nil => rw [hdw] at h; cases h
        | cons b s3 =>
          rw [hdw] at h
          replace h : (match findTagRest s3 with
              | some g2 => some (s1.takeWhile (fun c => !(c = '}')), g2)
              | none => none) = some (a, r) := h
          cases hftr : findTagRest s3 with
          | none => rw [hftr] at h; cases h
          | some g2 =>
            rw [hftr] at h
            injection h with h1
            rw [Prod.mk.injEq] at h1
            rw [← h1.1]
            exact hA
    · rw [if_neg hc] at h
      cases h

theorem parenPart_some_ne (r2 U : Str) (h : parenPart r2 = some U) : U ≠ [] := by
  obtain ⟨T, hT⟩ := parenPart_some_shape r2 U h
  subst hT
  rw [parenPart, if_pos rfl] at h
  cases hlcs : lastCloseSplit (okAfter (T.dropWhile isDot)) (T.takeWhile isDot) with
  | none => rw [hlcs] at h; cases h
  | some ut =>
    obtain ⟨U0, tl⟩ := ut
    rw [hlcs] at h
    replace h : (if U0 = [] then none else some U0) = some U := h
    by_cases hU0 : U0 = []
    · rw [if_pos hU0] at h
      cases h
    · rw [if_neg hU0] at h
      injection h with h1
      rw [← h1]
      exact hU0

theorem matchH1_some_ne (s g1 g2 : Str) (h : matchH1 s = some (g1, g2)) :
    g1 ≠ [] ∧ g2 ≠ [] := by
  rw [matchH1] at h
  by_cases hL : s.takeWhile h1Class = []
  · rw [if_pos hL] at h
    cases h
  · rw [if_neg hL] at h
    by_cases hW : (s.dropWhile h1Class).takeWhile isWS = []
    · rw [if_pos hW] at h
      cases h
    · rw [if_neg hW] at h
      cases hpp : parenPart ((s.dropWhile h1Class).dropWhile isWS) with
      | none => rw [hpp] at h; cases h
      | some U =>
        rw [hpp] at h
        replace h : some (s.takeWhile h1Class, U) = some (g1, g2) := h
        injection h with h1
        rw [Prod.mk.injEq] at h1
        constructor
        · rw [← h1.1]
          exact hL
        · rw [← h1.2]
          exact parenPart_some_ne _ _ hpp

theorem matchH2_some_ne (s g1 g2 : Str) (h : matchH2 s = some (g1, g2)) :
    g1 ≠ [] ∧ g2 ≠ [] := by
  cases s with
  | nil => cases h
  | cons c s1 =>
    rw [matchH2] at h
    by_cases hc : c = '['
    · rw [if_pos hc] at h
      cases hgl : (s1.takeWhile h1Class).getLast? with
      | none => rw [hgl] at h; cases h
      | some b =>
        rw [hgl] at h
        replace h : (if b = ']' then
            if (s1.takeWhile h1Class).dropLast = [] then none
            else
              match parenPart ((s1.dropWhile h1Class).dropWhile isWS) with
              | some U => some ((s1.takeWhile h1Class).dropLast, U)
              | none => none
          else none) = some (g1, g2) := h
        by_cases hb : b = ']'
        · rw [if_pos hb] at h
          by_cases hdl : (s1.takeWhile h1Class).dropLast = []
          · rw [if_pos hdl] at h
            cases h
          · rw [if_neg hdl] at h
            cases hpp : parenPart ((s1.dropWhile h1Class).dropWhile isWS) with
            | none => rw [hpp] at h; cases h
            | some U =>
              rw [hpp] at h
              replace h : some ((s1.takeWhile h1Class).dropLast, U) = some (g1, g2) := h
              injection h with h1
              rw [Prod.mk.injEq] at h1
              constructor
              · rw [← h1.1]
                exact hdl
              · rw [← h1.2]
                exact parenPart_some_ne _ _ hpp
        · rw [if_neg hb] at h
          cases h
    · rw [if_neg hc] at h
      cases h

theorem formatContent_plain (c t : Str)
    (h : formatContent c = { text := some t, tag := none, link := none }) :
    matchTag c = none ∧ matchH1 c = none ∧ matchH2 c = none
      ∧ removeYouTubeKeyword c = t := by
  rw [formatContent] at h
  cases hmt : matchTag c with
  | some p =>
    exfalso
    obtain ⟨a, rest⟩ := p
    rw [hmt] at h
    replace h : assembleContent (some a) rest
        = { text := some t, tag := none, link := none } := h
    have ha : a ≠ [] := matchTag_some_fst_ne c a rest hmt
    have halow : toLowerStr a ≠ [] := by
      intro hx
      exact ha (List.map_eq_nil_iff.mp hx)
    have htag := congrArg ParsedContent.tag h
    replace htag : strOpt (toLowerStr a) = none := htag
    rw [strOpt, if_neg halow] at htag
    cases htag
  | none =>
    rw [hmt] at h
    replace h : assembleContent
        (if playlistTest c then some playlistLit else none) c
        = { text := some t, tag := none, link := none } := h
    by_cases hpl : playlistTest c = true
    · exfalso
      rw [if_pos hpl] at h
      have htag := congrArg ParsedContent.tag h
      replace htag : strOpt (toLowerStr playlistLit) = none := htag
      rw [show toLowerStr playlistLit = playlistLit from by decide, strOpt,
        if_neg (by decide : ¬(playlistLit = ([] : Str)))] at htag
      cases htag
    · rw [if_neg hpl] at h
      cases hh1 : matchH1 c with
      | some p =>
        exfalso
        obtain ⟨g1, g2⟩ := p
        have hg1 : g1 ≠ [] := (matchH1_some_ne c g1 g2 hh1).1
        have hhs : hyperStep c = (some g1, g2) := by
          rw [hyperStep, hh1]
        have hlink := congrArg ParsedContent.link h
        simp only [assembleContent, hhs] at hlink
        replace hlink : strOpt g1 = none := hlink
        rw [strOpt, if_neg hg1] at hlink
        cases hlink
      | none =>
        cases hh2 : matchH2 c with
        | some p =>
          exfalso
          obtain ⟨g1, g2⟩ := p
          have hg2 : g2 ≠ [] := (matchH2_some_ne c g1 g2 hh2).2
          have hhs : hyperStep c = (some g2, g1) := by
            rw [hyperStep, hh1, hh2]
          have hlink := congrArg ParsedContent.link h
          simp only [assembleContent, hhs] at hlink
          replace hlink : strOpt g2 = none := hlink
          rw [strOpt, if_neg hg2] at hlink
          cases hlink
        | none =>
          have hhs : hyperStep c = (none, c) := by
            rw [hyperStep, hh1, hh2]
          have htext := congrArg ParsedContent.text h
          simp only [assembleContent, hhs] at htext
          exact ⟨rfl, rfl, rfl, strOpt_eq_some _ _ htext⟩

/-- C8 amended: re-running `formatContent` on an already-parsed `text` (tag and
link absent) never introduces a link or a non-playlist tag; its text is the
input with one further trailing YouTube-decoration strip (a no-op unless the
text still ends in one), and the tag is `playlist` exactly when the text still
contains the standalone word. -/
theorem c8_idempotent_amended (c t : Str)
    (h : formatContent c = { text := some t, tag := none, link := none }) :
    formatContent t = { text := strOpt (removeYouTubeKeyword t),
                        tag := if playlistTest t then some playlistLit else none,
                        link := none } := by
  obtain ⟨hmt, hh1, hh2, hrem⟩ := formatContent_plain c t h
  have hmt' : matchTag t = none := by
    cases hx : matchTag t with
    | none => rfl
    | some p =>
      exfalso
      rcases removeYT_split c t hrem with h1 | ⟨d, hd, hytd⟩
      · rw [h1] at hx
        rw [hmt] at hx
        cases hx
      · have hsome := matchTag_isSome_append t d (by rw [hx]; rfl)
        rw [← hd, hmt] at hsome
        cases hsome
  have hh1' : matchH1 t = none := by
    cases hx : matchH1 t with
    | none => rfl
    | some p =>
      exfalso
      obtain ⟨g1, g2⟩ := p
      rcases removeYT_split c t hrem with h1 | ⟨d, hd, hytd⟩
      · rw [h1] at hx
        rw [hh1] at hx
        cases hx
      · obtain ⟨hdne, hdok, hdnp⟩ := ytMatch_props d hytd
        have hsome := matchH1_append t d g1 g2 hdne hdok hdnp hx
        rw [← hd, hh1] at hsome
        cases hsome
  have hh2' : matchH2 t = none := by
    cases hx : matchH2 t with
    | none => rfl
    | some p =>
      exfalso
      obtain ⟨g1, g2⟩ := p
      rcases removeYT_split c t hrem with h1 | ⟨d, hd, hytd⟩
      · rw [h1] at hx
        rw [hh2] at hx
        cases hx
      · obtain ⟨hdne, hdok, hdnp⟩ := ytMatch_props d hytd
        have hsome := matchH2_append t d g1 g2 hdne hdok hdnp hx
        rw [← hd, hh2] at hsome
        cases hsome
  have hhs : hyperStep t = (none, t) := by
    rw [hyperStep, hh1', hh2']
  rw [formatContent, hmt']
  show assembleContent (if playlistTest t then some playlistLit else none) t = _
  by_cases hpl : playlistTest t = true
  · rw [if_pos hpl]
    simp only [assembleContent, hhs]
    rw [show strOpt (toLowerStr playlistLit) = some playlistLit from by decide]
  · rw [if_neg hpl]
    simp only [assembleContent, hhs]

/-- C8 counterexample: `a - YouTube - YouTube` parses to the plain text
`a - YouTube` (no tag, no link, no playlist word), yet re-running the parser
on that text strips the decoration again and changes the text. -/
theorem c8_counterexample :
    formatContent ("a - YouTube - YouTube".toList)
        = { text := some ("a - YouTube".toList), tag := none, link := none }
      ∧ playlistTest ("a - YouTube".toList) = false
      ∧ formatContent ("a - YouTube".toList)
        = { text := some ("a".toList), tag := none, link := none }
      ∧ ("a".toList : Str) ≠ ("a - YouTube".toList) := by
  decide

/-- Witness for C8 at the fixed point `hello world`. -/
theorem c8_idempotent_amended_witness :
    formatContent ("hello world".toList)
      = { text := strOpt (removeYouTubeKeyword ("hello world".toList)),
          tag := if playlistTest ("hello world".toList) then some playlistLit else none,
          link := none } :=
  c8_idempotent_amended ("hello world".toList) ("hello world".toList) (by decide)

/-- C1 amended: for every input of the first hypertext form -- a label with no
parentheses or whitespace, not opening a tag brace, then whitespace and a
parenthesized segment of plain characters -- `formatContent` assigns the
label-position token to `link` and the parenthesized segment (after the
unconditional trailing YouTube strip) to `text`: the reverse of the claim. -/
theorem c1_amended (L W U : Str)
    (hL : L ≠ []) (hLc : ∀ c ∈ L, c ≠ '(' ∧ isWS c = false)
    (hLh : L.head? ≠ some '{')
    (hW : W ≠ []) (hWc : ∀ c ∈ W, isWS c = true)
    (hU : U ≠ []) (hUc : ∀ c ∈ U, isDot c = true) :
    (formatContent (L ++ W ++ '(' :: U ++ [')'])).link = some L
      ∧ (formatContent (L ++ W ++ '(' :: U ++ [')'])).text
          = strOpt (removeYouTubeKeyword U) := by
  obtain ⟨w, W', hWeq⟩ : ∃ w W', W = w :: W' := by
    cases W with
    | nil => exact absurd rfl hW
    | cons w W' => exact ⟨w, W', rfl⟩
  subst hWeq
  obtain ⟨l0, L0, hLeq⟩ : ∃ l0 L0, L = l0 :: L0 := by
    cases L with
    | nil => exact absurd rfl hL
    | cons l0 L0 => exact ⟨l0, L0, rfl⟩
  have hLcls : ∀ c ∈ L, h1Class c = true := by
    intro c hc
    obtain ⟨h1, h2⟩ := hLc c hc
    simp [h1Class, h1, h2]
  have hw : isWS w = true := hWc w (List.mem_cons_self _ _)
  have hwcls : h1Class w = false := by simp [h1Class, hw]
  have hstep1 := tw_all_then_stop h1Class L w (W' ++ ('(' :: (U ++ [')']))) hLcls hwcls
  have hstep2 := tw_all_then_stop isWS (w :: W') '(' (U ++ [')'])
    hWc (by decide)
  have hTdot : ∀ c ∈ U ++ [')'], isDot c = true := by
    intro c hc
    rcases List.mem_append.mp hc with h1 | h2
    · exact hUc c h1
    · rcases List.mem_cons.mp h2 with h3 | h4
      · subst h3; decide
      · simp at h4
  have hmtnone : matchTag (L ++ (w :: W') ++ '(' :: U ++ [')']) = none := by
    apply matchTag_none_of_head
    rw [hLeq]
    simp only [List.cons_append, List.append_assoc, List.head?_cons]
    intro hx
    injection hx with hl0
    exact hLh (by rw [hLeq, List.head?_cons, hl0])
  have hH1 : matchH1 (L ++ (w :: W') ++ '(' :: U ++ [')']) = some (L, U) := by
    rw [matchH1]
    have e1 : L ++ (w :: W') ++ '(' :: U ++ [')']
        = L ++ (w :: (W' ++ ('(' :: (U ++ [')'])))) := by
      simp [List.cons_append, List.append_assoc]
    rw [e1, hstep1.1, if_neg hL, hstep1.2]
    have e2 : (w :: (W' ++ ('(' :: (U ++ [')']))))
        = (w :: W') ++ ('(' :: (U ++ [')'])) := by
      simp [List.cons_append]
    rw [e2, hstep2.1, if_neg (by simp : ¬(w :: W' = [])), hstep2.2]
    rw [parenPart, if_pos rfl, takeWhile_all isDot (U ++ [')']) hTdot,
      dropWhile_all isDot (U ++ [')']) hTdot]
    rw [show (okAfter ([] : Str) : Bool) = true from rfl, lcs_append_last U]
    show (match (if U = [] then none else some U : Option Str) with
        | some U => some (L, U)
        | none => none) = some (L, U)
    rw [if_neg hU]
  have hhs : hyperStep (L ++ (w :: W') ++ '(' :: U ++ [')']) = (some L, U) := by
    rw [hyperStep, hH1]
  rw [formatContent, hmtnone]
  constructor
  · show (assembleContent _ (L ++ (w :: W') ++ '(' :: U ++ [')'])).link = some L
    simp only [assembleContent, hhs]
    rw [strOpt, if_neg hL]
  · show (assembleContent _ (L ++ (w :: W') ++ '(' :: U ++ [')'])).text
        = strOpt (removeYouTubeKeyword U)
    simp only [assembleContent, hhs]

/-- Witness for C1 at the claim's own example `Doc (http://x)`. -/
theorem c1_amended_witness :
    (formatContent ("Doc".toList ++ " ".toList ++ '(' :: "http://x".toList ++ [')'])).link
        = some ("Doc".toList)
      ∧ (formatContent ("Doc".toList ++ " ".toList ++ '(' :: "http://x".toList ++ [')'])).text
        = strOpt (removeYouTubeKeyword ("http://x".toList)) :=
  c1_amended ("Doc".toList) (" ".toList) ("http://x".toList)
    (by decide) (by decide) (by decide) (by decide) (by decide) (by decide) (by decide)

end Todoist
